import Mathlib

/-!
# gene-melody: verification of the sequence translator and MIDI encoder

Shallow embedding of `src/gene_melody_streamlit.py`.  The translator logic
(the pitch map, the DNA filtering in `main`, and the note-building loop of
`dna_to_midi_file`) is translated directly from the source.  The byte-level
Standard MIDI File serialization is performed by the third-party `mido`
library, whose code is not part of this repository; those definitions are
modelled from the spec (§4.2) and are marked as such.
-/

namespace GeneMelody

/-- `BASE_NOTE_MAP = {'A': 60, 'T': 62, 'C': 64, 'G': 67}` (src line 19). -/
def BASE_NOTE_MAP (c : Char) : Option Int :=
  if c = 'A' then some 60
  else if c = 'T' then some 62
  else if c = 'C' then some 64
  else if c = 'G' then some 67
  else none

/-- An abstract note event: pitch, velocity, duration in ticks (spec §3). -/
structure NoteEvent where
  pitch : Int
  velocity : Int
  duration : Nat
deriving Repr, DecidableEq

/-- A track directive: instrument program number and tempo in BPM (spec §3). -/
structure TrackDirective where
  programNumber : Int
  tempoBPM : Nat
deriving Repr, DecidableEq

/-- The DNA filtering step of `main` (src lines 92 and 112):
`''.join([base for base in dna_input.upper() if base in BASE_NOTE_MAP])`. -/
def filterDNA (dna_input : String) : String :=
  String.mk ((dna_input.toList.map Char.toUpper).filter
    (fun base => (BASE_NOTE_MAP base).isSome))

/-- The note-building loop of `dna_to_midi_file` (src lines 38-42): for each
character, `note = BASE_NOTE_MAP.get(base)`, and a note-on/note-off pair is
appended only `if note:` — Python truthiness: `note` is not `None` and not 0. -/
def noteEventsOf (dna_sequence : String) : List NoteEvent :=
  dna_sequence.toList.filterMap (fun base =>
    match BASE_NOTE_MAP base with
    | some note => if note ≠ 0 then some ⟨note, 100, 200⟩ else none
    | none => none)

/-- The translator of spec §4.1 as realized by the source: `main` filters and
upper-cases the raw input (src line 92) and `dna_to_midi_file` turns each kept
character into a note event (src lines 38-42). -/
def translate (rawInput : String) : List NoteEvent :=
  noteEventsOf (filterDNA rawInput)

/-- The translator exactly as the spec words it (§4.1): upper-case, keep the
characters present in the pitch map, each kept character yields one event with
pitch `PitchMap[char]`, velocity 100, duration 200.  Used to compare against
`translate`, which is built from the source. -/
def translate_spec (rawInput : String) : List NoteEvent :=
  (rawInput.toList.map Char.toUpper).filterMap
    (fun c => (BASE_NOTE_MAP c).map (fun p => NoteEvent.mk p 100 200))

/-! ## Variable-length quantities and byte-level serialization.

Modelled from the spec: the byte-level encoder lives in the third-party
`mido` library, absent from `src/`; spec §4.2 is the authority here. -/

/-- Fuel-indexed 7-bit grouping; the fuel only bounds the recursion depth so
that the definition is structural (and thus computable by the kernel). -/
def vlqGroupsAux : Nat → Nat → List Nat
  | 0, n => [n % 128]
  | fuel + 1, n =>
    if n < 128 then [n]
    else vlqGroupsAux fuel (n / 128) ++ [n % 128]

/-- Modelled from the spec: the 7-bit groups of `n`, most-significant first
(§4.2 step 3).  Zero yields the single group `[0]`. -/
def vlqGroups (n : Nat) : List Nat :=
  vlqGroupsAux n n

/-- The grouping does not depend on the fuel, as long as it suffices. -/
lemma vlqGroupsAux_fuel :
    ∀ fuel fuel' n : Nat, n ≤ fuel → n ≤ fuel' →
      vlqGroupsAux fuel n = vlqGroupsAux fuel' n := by
  intro fuel
  induction fuel with
  | zero =>
    intro fuel' n h h'
    have hn : n = 0 := by omega
    subst hn
    cases fuel' <;> rfl
  | succ fuel ih =>
    intro fuel' n h h'
    cases fuel' with
    | zero =>
      have hn : n = 0 := by omega
      subst hn
      rfl
    | succ fuel' =>
      show (if n < 128 then [n] else vlqGroupsAux fuel (n / 128) ++ [n % 128]) = _
      by_cases hlt : n < 128
      · rw [if_pos hlt]
        exact (if_pos hlt).symm
      · rw [if_neg hlt, ih fuel' (n / 128) (by omega) (by omega)]
        exact (if_neg hlt).symm

/-- The defining recurrence of `vlqGroups`. -/
lemma vlqGroups_eq (n : Nat) :
    vlqGroups n = if n < 128 then [n] else vlqGroups (n / 128) ++ [n % 128] := by
  unfold vlqGroups
  by_cases h : n < 128
  · rw [if_pos h]
    cases n with
    | zero => rfl
    | succ m => exact if_pos h
  · rw [if_neg h]
    cases n with
    | zero => omega
    | succ m =>
      show (if m + 1 < 128 then _ else vlqGroupsAux m ((m + 1) / 128) ++ _) = _
      rw [if_neg h,
        vlqGroupsAux_fuel m ((m + 1) / 128) ((m + 1) / 128) (by omega) (le_refl _)]

/-- Set the continuation (high) bit on every byte except the last. -/
def markCont : List Nat → List Nat
  | [] => []
  | [b] => [b]
  | b :: c :: rest => (b + 128) :: markCont (c :: rest)

/-- Modelled from the spec: VLQ encoding (§4.2 step 3): 7-bit groups,
most-significant first, high bit set on every byte except the last. -/
def encodeVLQ (n : Nat) : List Nat :=
  markCont (vlqGroups n)

/-- Accumulating VLQ decoder: consume continuation bytes (high bit set),
stop at the first byte with the high bit clear. -/
def decodeVLQAux : Nat → List Nat → Nat
  | acc, [] => acc
  | acc, b :: rest =>
    if b < 128 then acc * 128 + b
    else decodeVLQAux (acc * 128 + (b - 128)) rest

/-- Modelled from the spec: VLQ decoding (§4.2 step 3, round-trip clause). -/
def decodeVLQ (bs : List Nat) : Nat :=
  decodeVLQAux 0 bs

/-- Big-endian 16-bit value as two bytes. -/
def u16be (n : Nat) : List Nat :=
  [n / 256 % 256, n % 256]

/-- Big-endian 32-bit value as four bytes. -/
def u32be (n : Nat) : List Nat :=
  [n / 16777216 % 256, n / 65536 % 256, n / 256 % 256, n % 256]

/-- Ticks per quarter note (the header division): fixed at 480 (spec §4.2,
the `mido` default used by the source). -/
def ticks_per_beat : Nat := 480

/-- The single MIDI channel used (spec §4.2: channel 0). -/
def channel : Nat := 0

/-- Modelled from the spec: `bpm2tempo` (imported from `mido` at src line 6)
computes `round(60_000_000 / bpm)` microseconds per quarter note (§4.2).
Rounding is half-up; no half-integer case arises for bpm in 60..240. -/
def bpm2tempo (bpm : Nat) : Nat :=
  (2 * 60000000 + bpm) / (2 * bpm)

/-- A track event, spec §4.2 step 2: delta-time plus message payload. -/
inductive TrackMsg where
  | programChange (delta : Nat) (program : Int)
  | setTempo (delta : Nat) (tempo : Nat)
  | noteOn (delta : Nat) (pitch velocity : Int)
  | noteOff (delta : Nat) (pitch velocity : Int)
  | endOfTrack (delta : Nat)
deriving Repr, DecidableEq

/-- Modelled from the spec: serialization of one track event (§4.2 step 2). -/
def msgBytes : TrackMsg → List Nat
  | .programChange d p => encodeVLQ d ++ [0xC0 ||| channel, p.toNat]
  | .setTempo d t => encodeVLQ d ++ [0xFF, 0x51, 3, t / 65536 % 256, t / 256 % 256, t % 256]
  | .noteOn d p v => encodeVLQ d ++ [0x90 ||| channel, p.toNat, v.toNat]
  | .noteOff d p v => encodeVLQ d ++ [0x80 ||| channel, p.toNat, v.toNat]
  | .endOfTrack d => encodeVLQ d ++ [0xFF, 0x2F, 0]

/-- Modelled from the spec: the track event stream (§4.2 step 2): program
change, tempo meta-event, then one note-on/note-off pair per event (note-off
delta = duration), then end-of-track.  The tempo value is `bpm2tempo bpm` as
passed by src line 37. -/
def trackMsgs (dir : TrackDirective) (events : List NoteEvent) : List TrackMsg :=
  [TrackMsg.programChange 0 dir.programNumber,
   TrackMsg.setTempo 0 (bpm2tempo dir.tempoBPM)]
  ++ (events.map (fun e =>
        [TrackMsg.noteOn 0 e.pitch e.velocity,
         TrackMsg.noteOff e.duration e.pitch e.velocity])).flatten
  ++ [TrackMsg.endOfTrack 0]

/-- The serialized track body (the bytes whose length the chunk header counts). -/
def trackBody (dir : TrackDirective) (events : List NoteEvent) : List Nat :=
  ((trackMsgs dir events).map msgBytes).flatten

/-- Modelled from the spec: the track chunk (§4.2 step 4): ASCII "MTrk",
32-bit big-endian body length, then the body. -/
def trackChunk (dir : TrackDirective) (events : List NoteEvent) : List Nat :=
  [0x4D, 0x54, 0x72, 0x6B] ++ u32be (trackBody dir events).length ++ trackBody dir events

/-- Modelled from the spec: the header chunk (§4.2 step 1): ASCII "MThd",
length 6, format 0, one track, the division. -/
def headerChunk : List Nat :=
  [0x4D, 0x54, 0x68, 0x64] ++ u32be 6 ++ u16be 0 ++ u16be 1 ++ u16be ticks_per_beat

/-- Encoder failure kind (spec §4.2 failure conditions). -/
inductive EncodeError where
  | rangeError
deriving Repr, DecidableEq

/-- A data value fits in a 7-bit MIDI data byte. -/
def byteInRange (x : Int) : Bool :=
  decide (0 ≤ x) && decide (x ≤ 127)

/-- Modelled from the spec: the encoder (§4.2): range-check the program number
and every pitch, then emit header chunk followed by track chunk; out-of-range
values fail with `RangeError` instead of being wrapped into the output. -/
def encode (dir : TrackDirective) (events : List NoteEvent) :
    Except EncodeError (List Nat) :=
  if byteInRange dir.programNumber && events.all (fun e => byteInRange e.pitch)
  then Except.ok (headerChunk ++ trackChunk dir events)
  else Except.error EncodeError.rangeError

/-- `dna_to_midi_file` (src lines 32-43) viewed as producing the bytes of the
file it saves: it builds the note events from its input and encodes them with
the given bpm and program. -/
def dna_to_midi_file (dna_sequence : String) (bpm : Nat) (program : Int) :
    Except EncodeError (List Nat) :=
  encode ⟨program, bpm⟩ (noteEventsOf dna_sequence)

/-- Outcome reported by the UI handler. -/
inductive AppError where
  | validation
  | range
deriving Repr, DecidableEq

/-- The play/download button handler of `main` (src lines 91-99 and 111-119):
filter the input; if nothing remains, report a validation error and produce no
file; otherwise hand the filtered string to `dna_to_midi_file`. -/
def mainAction (dna_input : String) (bpm : Nat) (program : Int) :
    Except AppError (List Nat) :=
  let dna := filterDNA dna_input
  if dna.isEmpty then Except.error AppError.validation
  else
    match dna_to_midi_file dna bpm program with
    | Except.ok buf => Except.ok buf
    | Except.error _ => Except.error AppError.range

/-! ## Helper lemmas -/

/-- Every pitch in the map is one of 60, 62, 64, 67. -/
lemma base_note_mem {c : Char} {n : Int} (h : BASE_NOTE_MAP c = some n) :
    n = 60 ∨ n = 62 ∨ n = 64 ∨ n = 67 := by
  unfold BASE_NOTE_MAP at h
  split_ifs at h <;> simp_all

/-- No pitch in the map is zero, so the Python truthiness test `if note:`
coincides with membership in the map. -/
lemma base_note_ne_zero {c : Char} {n : Int} (h : BASE_NOTE_MAP c = some n) :
    n ≠ 0 := by
  rcases base_note_mem h with h' | h' | h' | h' <;> omega

/-- The truthiness-guarded loop of `dna_to_midi_file` equals a plain
filter-map over map membership. -/
lemma noteEventsOf_eq (s : String) :
    noteEventsOf s
      = s.toList.filterMap
          (fun c => (BASE_NOTE_MAP c).map (fun p => NoteEvent.mk p 100 200)) := by
  unfold noteEventsOf
  refine List.filterMap_congr (fun c _ => ?_)
  cases h : BASE_NOTE_MAP c with
  | none => simp [h]
  | some n => simp [h, base_note_ne_zero h]

/-- Pre-filtering by map membership does not change the filter-map result. -/
lemma filterMap_filter_isSome (l : List Char) :
    (l.filter (fun c => (BASE_NOTE_MAP c).isSome)).filterMap
        (fun c => (BASE_NOTE_MAP c).map (fun p => NoteEvent.mk p 100 200))
      = l.filterMap
          (fun c => (BASE_NOTE_MAP c).map (fun p => NoteEvent.mk p 100 200)) := by
  induction l with
  | nil => rfl
  | cons c l ih =>
    cases h : BASE_NOTE_MAP c with
    | none => simp [List.filter_cons, List.filterMap_cons, h, ih]
    | some n => simp [List.filter_cons, List.filterMap_cons, h, ih]

/-- The source pipeline (filter in `main`, then the loop in
`dna_to_midi_file`) equals the spec's one-pass translator. -/
lemma translate_eq_spec (raw : String) : translate raw = translate_spec raw := by
  unfold translate translate_spec filterDNA
  rw [noteEventsOf_eq]
  show ((raw.toList.map Char.toUpper).filter _).filterMap _ = _
  exact filterMap_filter_isSome _

/-- Every 7-bit group produced by `vlqGroups` is below 128. -/
lemma vlqGroups_lt (n : Nat) : ∀ g ∈ vlqGroups n, g < 128 := by
  induction n using Nat.strong_induction_on with
  | _ n ih =>
    rw [vlqGroups_eq]
    split
    · intro g hg
      simp only [List.mem_singleton] at hg
      omega
    · intro g hg
      rw [List.mem_append] at hg
      rcases hg with hg | hg
      · exact ih (n / 128) (Nat.div_lt_self (by omega) (by omega)) g hg
      · simp only [List.mem_singleton] at hg
        subst hg
        exact Nat.mod_lt _ (by omega)

/-- Marking continuation bits distributes over a final singleton. -/
lemma markCont_concat (gs : List Nat) (y : Nat) :
    markCont (gs ++ [y]) = gs.map (fun g => g + 128) ++ [y] := by
  induction gs with
  | nil => rfl
  | cons a gs ih =>
    cases gs with
    | nil => rfl
    | cons b gs' =>
      show (a + 128) :: markCont ((b :: gs') ++ [y]) = _
      rw [ih]
      rfl

/-- Shape of the VLQ encoding above 127: continuation-marked high groups,
then the low 7 bits as the final byte. -/
lemma encodeVLQ_ge (n : Nat) (h : 128 ≤ n) :
    encodeVLQ n = (vlqGroups (n / 128)).map (fun g => g + 128) ++ [n % 128] := by
  unfold encodeVLQ
  rw [vlqGroups_eq, if_neg (by omega)]
  exact markCont_concat _ _

/-- The decoder accumulates continuation bytes and stops at the final byte. -/
lemma decodeAux_hi (gs : List Nat) (acc y : Nat) (hg : ∀ g ∈ gs, g < 128)
    (hy : y < 128) :
    decodeVLQAux acc (gs.map (fun g => g + 128) ++ [y])
      = gs.foldl (fun a g => a * 128 + g) acc * 128 + y := by
  induction gs generalizing acc with
  | nil => simp [decodeVLQAux, hy]
  | cons g gs ih =>
    show decodeVLQAux acc ((g + 128) :: _) = _
    rw [decodeVLQAux, if_neg (by omega)]
    have hgg : acc * 128 + (g + 128 - 128) = acc * 128 + g := by omega
    rw [List.append_eq, hgg, ih _ (fun x hx => hg x (List.mem_cons_of_mem _ hx))]
    rfl

/-- Folding the radix-128 recombination over the groups of `n` recovers `n`. -/
lemma foldl_vlqGroups (n : Nat) :
    ∀ acc, (vlqGroups n).foldl (fun a g => a * 128 + g) acc
      = acc * 128 ^ (vlqGroups n).length + n := by
  induction n using Nat.strong_induction_on with
  | _ n ih =>
    intro acc
    rw [vlqGroups_eq]
    split
    · simp [List.foldl]
    · rw [List.foldl_append, ih (n / 128) (Nat.div_lt_self (by omega) (by omega))]
      show (acc * 128 ^ _ + n / 128) * 128 + n % 128 = _
      rw [List.length_append, List.length_singleton, pow_succ]
      have hdm := Nat.div_add_mod n 128
      have hexp : (acc * 128 ^ (vlqGroups (n / 128)).length + n / 128) * 128 + n % 128
          = acc * (128 ^ (vlqGroups (n / 128)).length * 128)
            + (n / 128 * 128 + n % 128) := by ring
      rw [hexp]
      omega

/-- Claim C8: the VLQ encoding splits `n` into 7-bit groups, most-significant
first, sets the high bit on every byte except the last, encodes 0 as the
single byte 0x00, and decoding the encoded stream reproduces `n` exactly. -/
theorem claim_C8 (n : Nat) :
    decodeVLQ (encodeVLQ n) = n ∧
    encodeVLQ 0 = [0] ∧
    (encodeVLQ n).dropLast.all (fun b => decide (128 ≤ b) && decide (b < 256)) = true ∧
    (encodeVLQ n).getLast? = some (n % 128) ∧
    n % 128 < 128 := by
  refine ⟨?_, rfl, ?_, ?_, Nat.mod_lt _ (by omega)⟩
  · by_cases h : n < 128
    · unfold decodeVLQ encodeVLQ
      rw [vlqGroups_eq, if_pos h]
      show decodeVLQAux 0 [n] = n
      rw [decodeVLQAux, if_pos h]
      omega
    · rw [encodeVLQ_ge n (by omega)]
      unfold decodeVLQ
      rw [decodeAux_hi _ 0 _ (vlqGroups_lt _) (Nat.mod_lt _ (by omega)),
        foldl_vlqGroups]
      have hdm := Nat.div_add_mod n 128
      omega
  · by_cases h : n < 128
    · unfold encodeVLQ
      rw [vlqGroups_eq, if_pos h]
      rfl
    · rw [encodeVLQ_ge n (by omega), List.dropLast_concat, List.all_eq_true]
      intro b hb
      obtain ⟨g, hg, rfl⟩ := List.mem_map.mp hb
      have := vlqGroups_lt _ g hg
      simp
      omega
  · by_cases h : n < 128
    · unfold encodeVLQ
      rw [vlqGroups_eq, if_pos h]
      show some n = some (n % 128)
      rw [Nat.mod_eq_of_lt h]
    · rw [encodeVLQ_ge n (by omega)]
      exact List.getLast?_concat _

/-! ## Claims -/

/-- Claim C2: translation upper-cases the input, keeps exactly the characters
in the pitch map in their original relative order, and each kept character
yields one note event with pitch `PitchMap[char]`, velocity 100, duration 200
ticks; no event is produced for any other character. -/
theorem claim_C2 (rawInput : String) : translate rawInput = translate_spec rawInput :=
  translate_eq_spec rawInput

/-- Claim C3: the pitch map is the fixed function A→60, T→62, C→64, G→67, and
translating "ATCG" yields exactly the pitches [60, 62, 64, 67] in order. -/
theorem claim_C3 :
    BASE_NOTE_MAP 'A' = some 60 ∧ BASE_NOTE_MAP 'T' = some 62 ∧
    BASE_NOTE_MAP 'C' = some 64 ∧ BASE_NOTE_MAP 'G' = some 67 ∧
    (translate "ATCG").map NoteEvent.pitch = [60, 62, 64, 67] := by
  refine ⟨rfl, rfl, rfl, rfl, ?_⟩
  decide

/-- Claim C10: `dna_to_midi_file` re-filters its input: its loop emits a
note pair exactly for the characters whose pitch-map lookup is truthy, which
coincides with map membership since every mapped pitch is nonzero; hence every
pitch in its output lies in {60, 62, 64, 67} and unmapped characters are
dropped by the encoder loop as well. -/
theorem claim_C10 (dna : String) :
    noteEventsOf dna
      = dna.toList.filterMap
          (fun c => (BASE_NOTE_MAP c).map (fun p => NoteEvent.mk p 100 200)) ∧
    ((noteEventsOf dna).map NoteEvent.pitch).all
        (fun p => p == 60 || p == 62 || p == 64 || p == 67) = true := by
  refine ⟨noteEventsOf_eq dna, ?_⟩
  rw [List.all_eq_true]
  intro p hp
  rw [noteEventsOf_eq] at hp
  obtain ⟨e, he, rfl⟩ := List.mem_map.mp hp
  obtain ⟨c, -, hc⟩ := List.mem_filterMap.mp he
  cases h : BASE_NOTE_MAP c with
  | none => rw [h] at hc; exact Option.noConfusion hc
  | some n =>
    rw [h] at hc
    injection hc with hc
    subst hc
    rcases base_note_mem h with h' | h' | h' | h' <;> subst h' <;> decide

/-- Claim C1: for every directive and non-empty event list, a successfully
produced buffer begins with the format-0 single-track header chunk: bytes
4D 54 68 64 00 00 00 06 00 00 00 01, then the 2-byte division. -/
theorem claim_C1 (dir : TrackDirective) (events : List NoteEvent)
    (buf : List Nat) (_hne : events ≠ [])
    (hok : encode dir events = Except.ok buf) :
    buf.take 12 = [0x4D, 0x54, 0x68, 0x64, 0, 0, 0, 6, 0, 0, 0, 1] ∧
    (buf.drop 12).take 2 = u16be ticks_per_beat := by
  unfold encode at hok
  split at hok
  · injection hok with hok
    subst hok
    constructor
    · rw [List.take_append_of_le_length (by decide)]
      decide
    · rw [List.drop_append_of_le_length (by decide),
        List.take_append_of_le_length (by decide)]
      decide
  · exact Except.noConfusion hok

/-- Concrete instance of `claim_C1`: one A-note at bpm 120, program 81. -/
theorem claim_C1_witness :
    ([NoteEvent.mk 60 100 200] ≠ [] ∧
      encode ⟨81, 120⟩ [NoteEvent.mk 60 100 200] = Except.ok
        [77, 84, 104, 100, 0, 0, 0, 6, 0, 0, 0, 1, 1, 224,
         77, 84, 114, 107, 0, 0, 0, 23,
         0, 192, 81, 0, 255, 81, 3, 7, 161, 32,
         0, 144, 60, 100, 129, 72, 128, 60, 100, 0, 255, 47, 0]) ∧
    ([77, 84, 104, 100, 0, 0, 0, 6, 0, 0, 0, 1, 1, 224,
      77, 84, 114, 107, 0, 0, 0, 23,
      0, 192, 81, 0, 255, 81, 3, 7, 161, 32,
      0, 144, 60, 100, 129, 72, 128, 60, 100, 0, 255, 47, 0].take 12
        = [0x4D, 0x54, 0x68, 0x64, 0, 0, 0, 6, 0, 0, 0, 1] ∧
     ([77, 84, 104, 100, 0, 0, 0, 6, 0, 0, 0, 1, 1, 224,
       77, 84, 114, 107, 0, 0, 0, 23,
       0, 192, 81, 0, 255, 81, 3, 7, 161, 32,
       0, 144, 60, 100, 129, 72, 128, 60, 100, 0, 255, 47, 0].drop 12).take 2
        = u16be ticks_per_beat) :=
  ⟨⟨by simp, by rfl⟩,
    claim_C1 ⟨81, 120⟩ [NoteEvent.mk 60 100 200] _ (by simp) (by rfl)⟩

/-- Claim C6: an out-of-range program number or pitch makes the encoder fail
with a range error; the value is never wrapped into the output. -/
theorem claim_C6 (dir : TrackDirective) (events : List NoteEvent)
    (h : ¬(0 ≤ dir.programNumber ∧ dir.programNumber ≤ 127) ∨
      ∃ e ∈ events, ¬(0 ≤ e.pitch ∧ e.pitch ≤ 127)) :
    encode dir events = Except.error EncodeError.rangeError := by
  unfold encode
  rw [if_neg]
  intro hcond
  rw [Bool.and_eq_true, List.all_eq_true] at hcond
  obtain ⟨hp, hall⟩ := hcond
  rcases h with h | ⟨e, he, hne⟩
  · apply h
    simpa [byteInRange] using hp
  · apply hne
    simpa [byteInRange] using hall e he

/-- Concrete instance of `claim_C6`: program number 128 is rejected. -/
theorem claim_C6_witness :
    (¬(0 ≤ (TrackDirective.mk 128 120).programNumber ∧
        (TrackDirective.mk 128 120).programNumber ≤ 127) ∨
      ∃ e ∈ ([] : List NoteEvent), ¬(0 ≤ e.pitch ∧ e.pitch ≤ 127)) ∧
    encode ⟨128, 120⟩ [] = Except.error EncodeError.rangeError :=
  ⟨Or.inl (by decide), claim_C6 ⟨128, 120⟩ [] (Or.inl (by decide))⟩

/-- Claim C7: when the filtered symbol sequence is empty, the translator
returns an empty event list, the handler reports a validation error, and no
byte buffer is produced. -/
theorem claim_C7 (dna_input : String) (bpm : Nat) (program : Int)
    (h : filterDNA dna_input = "") :
    translate dna_input = [] ∧
    mainAction dna_input bpm program = Except.error AppError.validation := by
  constructor
  · unfold translate
    rw [h]
    rfl
  · unfold mainAction
    rw [h]
    rfl

/-- Concrete instance of `claim_C7`: the fully-invalid input "xyz123". -/
theorem claim_C7_witness :
    filterDNA "xyz123" = "" ∧
    (translate "xyz123" = [] ∧
      mainAction "xyz123" 120 81 = Except.error AppError.validation) :=
  ⟨by decide, claim_C7 "xyz123" 120 81 (by decide)⟩

/-- Claim C9: encoding is deterministic: identical directive and event inputs
produce byte-identical buffers. -/
theorem claim_C9 (dir₁ dir₂ : TrackDirective) (events₁ events₂ : List NoteEvent)
    (h1 : dir₁ = dir₂) (h2 : events₁ = events₂) :
    encode dir₁ events₁ = encode dir₂ events₂ := by
  rw [h1, h2]

/-- Concrete instance of `claim_C9`. -/
theorem claim_C9_witness :
    ((⟨81, 120⟩ : TrackDirective) = ⟨81, 120⟩ ∧
      ([NoteEvent.mk 60 100 200] : List NoteEvent) = [NoteEvent.mk 60 100 200]) ∧
    encode ⟨81, 120⟩ [NoteEvent.mk 60 100 200]
      = encode ⟨81, 120⟩ [NoteEvent.mk 60 100 200] :=
  ⟨⟨rfl, rfl⟩,
    claim_C9 ⟨81, 120⟩ ⟨81, 120⟩ [NoteEvent.mk 60 100 200]
      [NoteEvent.mk 60 100 200] rfl rfl⟩

/-- Every translated event carries velocity 100 and duration 200. -/
lemma translate_velocity_duration (raw : String) :
    ∀ e ∈ translate raw, e.velocity = 100 ∧ e.duration = 200 := by
  intro e he
  rw [translate_eq_spec] at he
  obtain ⟨c, -, hc⟩ := List.mem_filterMap.mp he
  cases h : BASE_NOTE_MAP c with
  | none => rw [h] at hc; exact Option.noConfusion hc
  | some n =>
    rw [h] at hc
    injection hc with hc
    subst hc
    exact ⟨rfl, rfl⟩

/-- Bytes of the note-pair stream: each event with velocity 100 and duration
200 serializes to a note-on at delta 0 followed by a note-off at delta 200
(VLQ 0x81 0x48). -/
lemma notePairs_bytes (events : List NoteEvent)
    (h : ∀ e ∈ events, e.velocity = 100 ∧ e.duration = 200) :
    (((events.map (fun e =>
          [TrackMsg.noteOn 0 e.pitch e.velocity,
           TrackMsg.noteOff e.duration e.pitch e.velocity])).flatten).map
        msgBytes).flatten
      = (events.map (fun e =>
          [0, 144, e.pitch.toNat, 100, 129, 72, 128, e.pitch.toNat, 100])).flatten := by
  induction events with
  | nil => rfl
  | cons e es ih =>
    obtain ⟨hv, hd⟩ := h e (List.mem_cons_self _ _)
    simp only [List.map_cons, List.flatten_cons, List.map_append,
      List.flatten_append]
    rw [ih (fun x hx => h x (List.mem_cons_of_mem _ hx)), hv, hd]
    have h200 : encodeVLQ 200 = [129, 72] := by decide
    simp [msgBytes, channel, h200]
    rfl

/-- The track body, with the note-pair bytes written out, for any event list
whose events all have velocity 100 and duration 200. -/
lemma trackBody_shape (dir : TrackDirective) (events : List NoteEvent)
    (h : ∀ e ∈ events, e.velocity = 100 ∧ e.duration = 200) :
    trackBody dir events =
      msgBytes (TrackMsg.programChange 0 dir.programNumber)
      ++ msgBytes (TrackMsg.setTempo 0 (bpm2tempo dir.tempoBPM))
      ++ (events.map (fun e =>
            [0, 144, e.pitch.toNat, 100, 129, 72, 128, e.pitch.toNat, 100])).flatten
      ++ [0, 255, 47, 0] := by
  unfold trackBody trackMsgs
  rw [List.map_append, List.map_append, List.flatten_append, List.flatten_append,
    notePairs_bytes events h]
  have heot : msgBytes (TrackMsg.endOfTrack 0) = [0, 255, 47, 0] := rfl
  simp [heot, List.append_assoc]

/-- Claim C4: the encoded track body contains, for each note event in order,
a note-on (delta 0, status 0x90 on channel 0, pitch byte, velocity byte 100)
immediately followed by its note-off (delta = the event's duration of 200
ticks, VLQ-encoded as 0x81 0x48, status 0x80, same pitch and velocity), so
notes never overlap. -/
theorem claim_C4 (dir : TrackDirective) (rawInput : String) :
    trackBody dir (translate rawInput) =
      msgBytes (TrackMsg.programChange 0 dir.programNumber)
      ++ msgBytes (TrackMsg.setTempo 0 (bpm2tempo dir.tempoBPM))
      ++ ((translate rawInput).map (fun e =>
            [0, 144, e.pitch.toNat, 100, 129, 72, 128, e.pitch.toNat, 100])).flatten
      ++ [0, 255, 47, 0] ∧
    encodeVLQ 200 = [129, 72] ∧
    (translate rawInput).all (fun e => e.duration == 200) = true := by
  refine ⟨trackBody_shape dir (translate rawInput)
    (translate_velocity_duration rawInput), by decide, ?_⟩
  rw [List.all_eq_true]
  intro e he
  have := (translate_velocity_duration rawInput e he).2
  simp [this]

/-- Tempo meta-events in a track message stream. -/
def isSetTempoMsg : TrackMsg → Bool
  | .setTempo _ _ => true
  | _ => false

/-- The note-pair stream contains no tempo meta-event. -/
lemma notePairs_no_tempo (events : List NoteEvent) :
    ((events.map (fun e =>
        [TrackMsg.noteOn 0 e.pitch e.velocity,
         TrackMsg.noteOff e.duration e.pitch e.velocity])).flatten).filter
      isSetTempoMsg = [] := by
  induction events with
  | nil => rfl
  | cons e es ih =>
    simp only [List.map_cons, List.flatten_cons, List.filter_append, ih,
      List.append_nil]
    rfl

/-- Claim C5: for every bpm in the accepted range 60..240, the track contains
exactly one tempo meta-event (delta 0, status 0xFF, type 0x51, length 3) whose
three data bytes encode, big-endian, round(60000000 / bpm); bpm 120 encodes
500000 microseconds per quarter note. -/
theorem claim_C5 (dir : TrackDirective) (events : List NoteEvent)
    (h1 : 60 ≤ dir.tempoBPM) (h2 : dir.tempoBPM ≤ 240) :
    (trackMsgs dir events).filter isSetTempoMsg
        = [TrackMsg.setTempo 0 (bpm2tempo dir.tempoBPM)] ∧
    msgBytes (TrackMsg.setTempo 0 (bpm2tempo dir.tempoBPM))
        = [0, 0xFF, 0x51, 3,
           bpm2tempo dir.tempoBPM / 65536 % 256,
           bpm2tempo dir.tempoBPM / 256 % 256,
           bpm2tempo dir.tempoBPM % 256] ∧
    (bpm2tempo dir.tempoBPM / 65536 % 256) * 65536
        + (bpm2tempo dir.tempoBPM / 256 % 256) * 256
        + bpm2tempo dir.tempoBPM % 256 = bpm2tempo dir.tempoBPM ∧
    bpm2tempo 120 = 500000 := by
  refine ⟨?_, rfl, ?_, by decide⟩
  · unfold trackMsgs
    rw [List.filter_append, List.filter_append, notePairs_no_tempo]
    rfl
  · have hb : bpm2tempo dir.tempoBPM < 16777216 := by
      unfold bpm2tempo
      rw [Nat.div_lt_iff_lt_mul (by omega : 0 < 2 * dir.tempoBPM)]
      omega
    omega

/-- Concrete instance of `claim_C5` at bpm 120. -/
theorem claim_C5_witness :
    (60 ≤ (120 : Nat) ∧ (120 : Nat) ≤ 240) ∧
    ((trackMsgs ⟨81, 120⟩ []).filter isSetTempoMsg
        = [TrackMsg.setTempo 0 (bpm2tempo 120)] ∧
     msgBytes (TrackMsg.setTempo 0 (bpm2tempo 120))
        = [0, 0xFF, 0x51, 3, bpm2tempo 120 / 65536 % 256,
           bpm2tempo 120 / 256 % 256, bpm2tempo 120 % 256] ∧
     (bpm2tempo 120 / 65536 % 256) * 65536 + (bpm2tempo 120 / 256 % 256) * 256
        + bpm2tempo 120 % 256 = bpm2tempo 120 ∧
     bpm2tempo 120 = 500000) :=
  ⟨⟨by omega, by omega⟩, claim_C5 ⟨81, 120⟩ [] (by decide) (by decide)⟩

end GeneMelody
